import Mathlib

/-!
Shallow embedding of the HashDB core (plugins/hashdb) — the Store's upsert
contract, the Scanner's rescan decision, the Hasher's batching, the Deduper's
grouping/scoring/quarantine logic, and the Maintenance missing-file step —
together with theorems checking the specification's claims against it.

Strings are modelled as `List Char`; the path separator is `'/'` (the POSIX
value of `os.sep`).  Python floats are idealized as `ℚ` (all the scores
involved are decimal fractions that floats represent exactly at the claim's
scale).  Filesystem and clock effects are passed in as explicit oracles.
-/

set_option linter.unusedVariables false

namespace HashDB

/-- Strings, modelled as lists of characters. -/
abbrev Str := List Char

/-- A row of the `file_hashes` table (db.py `ensure_schema`); the
autoincrement `id` column plays no role in any claim and is not modelled.
Nullable SQL columns are `Option`. -/
structure Row where
  filepath : Str
  filename : Str
  size_bytes : Option Int
  hash_md5 : Option Str
  hash_sha256 : Option Str
  imported_on : Option Str
  last_scanned_on : Option Str
  created_on : Option Str
  modified_on : Option Str
  flags : Option Str
deriving DecidableEq, Repr

/-- A scanner work item (scanner.py `get_file_metadata`): metadata of a file
whose `stat` succeeded.  `modified_on` is the isoformat mtime string. -/
structure Meta where
  filepath : Str
  filename : Str
  size_bytes : Int
  created_on : Option Str
  modified_on : Str
deriving DecidableEq, Repr

/-- The two selectable hash algorithms. -/
inductive HashType where
  | md5
  | sha256
deriving DecidableEq, Repr

/-- The hash column selected by `hash_type` (deduper.py `find_duplicates`:
`col = "hash_md5" if hash_type == "md5" else "hash_sha256"`). -/
def colOf (ht : HashType) (r : Row) : Option Str :=
  match ht with
  | HashType.md5 => r.hash_md5
  | HashType.sha256 => r.hash_sha256

/-! ### Store (db.py / cli.py write paths)

The table is modelled as a list of rows; `filepath` is the UNIQUE key, so an
`ON CONFLICT(filepath) DO UPDATE` replaces the (first) row holding the path
and an insert appends. -/

/-- Generic upsert on the row list: update the existing row for the record's
path with `upd old new`, or append the record when the path is new. -/
def storeUpsertWith (upd : Row → Row → Row) : List Row → Row → List Row
  | [], rec => [rec]
  | r :: rs, rec =>
    if r.filepath = rec.filepath then upd r rec :: rs
    else r :: storeUpsertWith upd rs rec

/-- db.py `upsert_file_record`: `ON CONFLICT(filepath) DO UPDATE SET
col=excluded.col` for every non-key column — each column, hash columns
included, is set to the incoming record's value (NULLs included). -/
def upsert_file_record (store : List Row) (rec : Row) : List Row :=
  storeUpsertWith (fun _old new => new) store rec

/-- The conflict action of cli.py `cmd_scan.commit_batch`: every column except
`imported_on` and `flags` is set from the excluded (incoming) row. -/
def commitUpdate (old new : Row) : Row :=
  { old with
    filename := new.filename
    size_bytes := new.size_bytes
    hash_md5 := new.hash_md5
    hash_sha256 := new.hash_sha256
    last_scanned_on := new.last_scanned_on
    created_on := new.created_on
    modified_on := new.modified_on }

/-- cli.py `cmd_scan.commit_batch`: the per-record INSERT … ON CONFLICT. -/
def commitUpsert (store : List Row) (rec : Row) : List Row :=
  storeUpsertWith commitUpdate store rec

/-- db.py `get_record_by_path`: `SELECT * WHERE filepath = ?` + `fetchone`. -/
def get_record_by_path (store : List Row) (p : Str) : Option Row :=
  store.find? (fun r => r.filepath == p)

/-! ### Scanner (scanner.py) -/

/-- scanner.py `needs_rescan`, with the inner `_get_db_record` inlined: the
record handed over is just the stored `modified_on` (absent both when no row
exists and when the stored `modified_on` is NULL, since `_get_db_record`
returns `None` for both). -/
def needs_rescan (dbModifiedOn : Option Str) (meta : Meta) (rescanMode : Bool) : Bool :=
  match dbModifiedOn with
  | none => true
  | some mo => if rescanMode then decide (mo ≠ meta.modified_on) else true

/-- Python dict lookup over the insertion sequence used to build
`modified_index` (later assignments to the same key win). -/
def pyDictGet (l : List (Str × Option Str)) (k : Str) : Option (Option Str) :=
  (l.reverse.find? (fun pr => pr.fst == k)).map Prod.snd

/-- The `SELECT filepath, modified_on` bulk load of scanner.py
`build_work_list`, as the pair sequence fetched from the store. -/
def storeSnapshot (store : List Row) : List (Str × Option Str) :=
  store.map (fun r => (r.filepath, r.modified_on))

/-- scanner.py `build_work_list`.  `dbLoad` is the outcome of the one-time
bulk load: `none` models the `except` branch (the snapshot query raised), in
which case `modified_index = {}`.  `fs` is the sequence of files under the
root whose metadata read succeeded (files whose `stat` raised are skipped by
`_meta_safe` before this logic runs); chunking and the metadata thread pool
preserve this order. -/
def build_work_list (dbLoad : Option (List (Str × Option Str)))
    (rescanMode : Bool) (fs : List Meta) : List Meta :=
  let idx := dbLoad.getD []
  fs.filter (fun m => needs_rescan ((pyDictGet idx m.filepath).bind id) m rescanMode)

/-- One Scanner pass reading its snapshot from `store` (the successful-load
case wiring of cli.py `cmd_scan`). -/
def scanOnce (store : List Row) (rescanMode : Bool) (fs : List Meta) : List Meta :=
  build_work_list (some (storeSnapshot store)) rescanMode fs

/-! ### Hasher (hasher.py) -/

/-- hasher.py `hash_worker`.  `hashOf` is the digest oracle for
`compute_hash` (`none` models the `except` branch: unreadable file), `now`
the `datetime.now().isoformat()` timestamp. -/
def hash_worker (hashOf : Str → Option Str) (now : Str) (ht : HashType)
    (meta : Meta) : Option Row :=
  (hashOf meta.filepath).map (fun hv =>
    { filepath := meta.filepath
      filename := meta.filename
      size_bytes := some meta.size_bytes
      hash_md5 := if ht = HashType.md5 then some hv else none
      hash_sha256 := if ht = HashType.sha256 then some hv else none
      imported_on := some now
      last_scanned_on := some now
      created_on := meta.created_on
      modified_on := some meta.modified_on
      flags := none })

/-- One step of the batching loop of hasher.py `run_hashing`: state is
(batches flushed so far, pending buffer); a `none` result (failed hash) is
dropped, a completed record is appended to the buffer, and the buffer is
flushed as soon as its size reaches `batchSize`. -/
def hashBatchStep (batchSize : Nat) (st : List (List Row) × List Row)
    (orec : Option Row) : List (List Row) × List Row :=
  match orec with
  | none => st
  | some r =>
    let pending := st.snd ++ [r]
    if batchSize ≤ pending.length then (st.fst ++ [pending], [])
    else (st.fst, pending)

/-- hasher.py `run_hashing`, projected onto the sequence of
`batch_callback` invocations: completed records stream through the batching
loop (in completion order `orecs`), and a final nonempty remainder is flushed
once more after the pool drains. -/
def run_hashing_batches (batchSize : Nat) (orecs : List (Option Row)) : List (List Row) :=
  let st := orecs.foldl (hashBatchStep batchSize) ([], [])
  if st.snd.isEmpty then st.fst else st.fst ++ [st.snd]

/-- hasher.py `run_hashing`'s `results` list: every record whose hash
computation succeeded, in completion order. -/
def run_hashing_results (orecs : List (Option Row)) : List Row :=
  orecs.filterMap id

/-! ### Deduper (deduper.py) -/

/-- `xs` starts with `needle`. -/
def startsWithL : Str → Str → Bool
  | _, [] => true
  | [], _ :: _ => false
  | c :: cs, n :: ns => c == n && startsWithL cs ns

/-- Python's `needle in hay` substring test. -/
def containsL (needle : Str) : Str → Bool
  | [] => startsWithL [] needle
  | c :: cs => startsWithL (c :: cs) needle || containsL needle cs

/-- Python `str.lower()` (the filenames involved are ASCII, where
`Char.toLower` agrees with Python). -/
def pyLower (s : Str) : Str := s.map Char.toLower

/-- `os.path.basename` on POSIX: everything after the last `'/'`. -/
def basename (p : Str) : Str :=
  p.foldl (fun acc c => if c = '/' then [] else acc ++ [c]) []

/-- The fixed copy-indicator substrings of deduper.py `score_file`. -/
def copyIndicators : List Str :=
  ["_1".toList, "(1)".toList, "-copy".toList, "-edited".toList, " - ".toList]

/-- `any(suffix in name for suffix in [...])` in deduper.py `score_file`. -/
def hasCopyIndicator (name : Str) : Bool :=
  copyIndicators.any (fun suf => containsL suf name)

/-- `path.count(os.sep)` with `os.sep = '/'`. -/
def countSep (p : Str) : Nat := p.countP (fun c => c == '/')

/-- deduper.py `score_file`, lower score = better file.  `ct` is the
`os.path.getctime` oracle; `none` models its `except` branch (term skipped).
Float arithmetic is idealized as `ℚ`. -/
def score_file (ct : Str → Option ℚ) (path : Str) : ℚ :=
  let name := pyLower (basename path)
  let indic : ℚ := if hasCopyIndicator name then 10 else 0
  let base : ℚ := indic + (countSep path : ℚ) + (name.length : ℚ) / 10
  match ct path with
  | some c => base - c / 1000000
  | none => base

/-- deduper.py `choose_best_file`: Python `min(rows, key=score)` keeps the
first row attaining the minimal score; `none` on an empty group models the
`ValueError` `min` raises there. -/
def choose_best_file (ct : Str → Option ℚ) (rows : List Row) : Option Row :=
  match rows with
  | [] => none
  | r :: rs =>
    some (rs.foldl (fun best x =>
      if score_file ct x.filepath < score_file ct best.filepath then x else best) r)

/-- Append a row to the group of key `h`, preserving dict insertion order
(the `groups` loop of deduper.py `find_duplicates`). -/
def addRow : List (Str × List Row) → Str → Row → List (Str × List Row)
  | [], h, r => [(h, [r])]
  | (k, g) :: rest, h, r =>
    if k = h then (k, g ++ [r]) :: rest
    else (k, g) :: addRow rest h r

/-- One iteration of the grouping loop: rows whose selected column is NULL
never reach it (they are filtered by the SQL `WHERE {col} IS NOT NULL`). -/
def groupStep (ht : HashType) (gs : List (Str × List Row)) (r : Row) :
    List (Str × List Row) :=
  match colOf ht r with
  | some h => addRow gs h r
  | none => gs

/-- deduper.py `find_duplicates`: select the rows whose chosen hash column is
non-NULL, group them by that hash value, and keep the groups of size > 1. -/
def find_duplicates (ht : HashType) (rows : List Row) : List (Str × List Row) :=
  let nonNull := rows.filter (fun r => (colOf ht r).isSome)
  (nonNull.foldl (groupStep ht) []).filter (fun pr => 1 < pr.snd.length)

/-- The group stored under key `h` (`[]` when the key is absent) — the
specification-side reading of the `groups` dict. -/
def groupFor : List (Str × List Row) → Str → List Row
  | [], _ => []
  | (k, g) :: rest, h => if k = h then g else groupFor rest h

/-! ### safe_move (deduper.py) -/

/-- Decimal digits of `n`, least significant first, with structural fuel
(`fuel ≥ n` suffices). -/
def natDigitsF : Nat → Nat → List Nat
  | _, 0 => []
  | 0, _ + 1 => []
  | fuel + 1, n + 1 => ((n + 1) % 10) :: natDigitsF fuel ((n + 1) / 10)

/-- The character of a decimal digit. -/
def digitChar (d : Nat) : Char := Char.ofNat (48 + d)

/-- The value of a little-endian decimal digit list (specification-side
inverse of `natDigitsF`). -/
def natVal (l : List Nat) : Nat := l.foldr (fun d acc => d + 10 * acc) 0

/-- Python `str(n)` for a natural number. -/
def natRepr (n : Nat) : Str :=
  if n = 0 then ['0'] else ((natDigitsF n n).map digitChar).reverse

/-- Split `b` before its last `'.'` (the dot goes with the extension);
`none` when `b` has no dot. -/
def splitAtLastDot : Str → Option (Str × Str)
  | [] => none
  | c :: cs =>
    match splitAtLastDot cs with
    | some (pre, ext) => some (c :: pre, ext)
    | none => if c = '.' then some ([], c :: cs) else none

/-- `os.path.splitext` on a basename: the last dot starts the extension
unless every character before it is a dot (leading dots never start an
extension). -/
def splitext (b : Str) : Str × Str :=
  match splitAtLastDot b with
  | none => (b, [])
  | some (pre, ext) => if pre.all (fun c => c = '.') then (b, []) else (pre, ext)

/-- The prefix `os.path.join(q, ·)` puts before a relative component. -/
def jpre (q : Str) : Str :=
  if q = [] then [] else if q.getLast? = some '/' then q else q ++ ['/']

/-- `os.path.join` on POSIX for a single component. -/
def pyJoin (q b : Str) : Str :=
  if b.head? = some '/' then b else jpre q ++ b

/-- The name tried at loop iteration `k` of deduper.py `safe_move`:
the plain basename first, then `name_k` + extension for `k ≥ 1`. -/
def candName (base : Str) : Nat → Str
  | 0 => base
  | n + 1 => (splitext base).fst ++ '_' :: natRepr (n + 1) ++ (splitext base).snd

/-- The destination path tried at iteration `k` of `safe_move`. -/
def cand (q base : Str) (k : Nat) : Str := pyJoin q (candName base k)

/-- The `while os.path.exists(dest)` loop of `safe_move`: return the first
free candidate, starting at index `i`; `fs` is the set of paths existing on
disk, `fuel` bounds the search (the loop itself is unbounded; `safe_move`
supplies fuel proven sufficient below). -/
def findFree (fs : List Str) (c : Nat → Str) : Nat → Nat → Option Str
  | 0, _ => none
  | fuel + 1, i => if c i ∈ fs then findFree fs c fuel (i + 1) else some (c i)

/-- deduper.py `safe_move`, as the destination path it returns; the
filesystem is the list `fs` of existing paths. -/
def safe_move (fs : List Str) (src quarantine : Str) : Option Str :=
  findFree fs (cand quarantine (basename src)) (fs.length + 1) 0

/-! ### delete_or_quarantine / dedupe (deduper.py) -/

/-- The `f"moved to {dest}"` action string. -/
def movedToStr (dest : Str) : Str := "moved to ".toList ++ dest

/-- The `f"failed: {e}"` action string. -/
def failedStr (e : Str) : Str := "failed: ".toList ++ e

/-- The `"deleted"` action string. -/
def deletedStr : Str := "deleted".toList

/-- deduper.py `delete_or_quarantine`.  The filesystem side effects inside
the `try` block are oracles: `mv p` is the outcome of
`safe_move(p, quarantine_dir)` (`Except.error` models a raised exception),
`rm p` the outcome of `os.remove(p)`. -/
def delete_or_quarantine (safeDelete : Bool) (mv : Str → Except Str Str)
    (rm : Str → Except Str Unit) (rows : List Row) (keep : Row) :
    List (Str × Str) :=
  rows.filterMap (fun row =>
    if row.filepath = keep.filepath then none
    else some (row.filepath,
      if safeDelete then
        match mv row.filepath with
        | Except.ok dest => movedToStr dest
        | Except.error e => failedStr e
      else
        match rm row.filepath with
        | Except.ok _ => deletedStr
        | Except.error e => failedStr e))

/-- deduper.py `dedupe`, projected onto `(len(duplicates), actions)`:
find the duplicate groups, pick a keeper per group, and accumulate every
group's `delete_or_quarantine` outcome list. -/
def dedupe (ct : Str → Option ℚ) (mv : Str → Except Str Str)
    (rm : Str → Except Str Unit) (safeDelete : Bool) (ht : HashType)
    (rows : List Row) : Nat × List (Str × Str) :=
  let dups := find_duplicates ht rows
  (dups.length,
    dups.foldl (fun acc pr =>
      acc ++ match choose_best_file ct pr.snd with
        | some keep => delete_or_quarantine safeDelete mv rm pr.snd keep
        | none => []) [])

/-! ### Maintenance (maintenance.py) -/

/-- maintenance.py `find_missing_files`: the stored paths that no longer
exist on disk (`ex` is the `os.path.exists` oracle). -/
def find_missing_files (ex : Str → Bool) (fps : List Str) : List Str :=
  fps.filter (fun fp => !ex fp)

/-- maintenance.py `find_missing_files_parallel`: `ThreadPoolExecutor.map`
returns results in submission order, and the comprehension
`[fp for fp in ex.map(_check, filepaths) if fp]` keeps only TRUTHY values —
`if fp` drops both the `None` results (paths that exist) and a missing path
that is the empty string (falsy), unlike the sequential
`find_missing_files`, which appends every missing path. -/
def find_missing_files_parallel (ex : Str → Bool) (threads : Nat)
    (fps : List Str) : List Str :=
  if fps = [] then []
  else if max 1 threads ≤ 1 then find_missing_files ex fps
  else (fps.map (fun fp => if ex fp then none else some fp)).filterMap
    (fun o => o.bind (fun fp => if fp = [] then none else some fp))

/-- maintenance.py `remove_missing_from_db`: `executemany` of
`DELETE WHERE filepath = ?` over the missing list. -/
def remove_missing_from_db (store : List Row) (missing : List Str) : List Row :=
  store.filter (fun r => !missing.contains r.filepath)

/-- Steps 1–2a of maintenance.py `run_cleanup` restricted to the
missing-file step: load all stored paths, find the missing ones with the
worker pool, and bulk-delete their records. -/
def missing_file_step (ex : Str → Bool) (threads : Nat) (store : List Row) :
    List Row :=
  remove_missing_from_db store
    (find_missing_files_parallel ex threads (store.map Row.filepath))

/-! ### Concrete sample data used by evaluation theorems -/

/-- A stored record for `/data/file.bin` carrying a SHA-256 and no MD5. -/
def c1StoredRow : Row :=
  ⟨"/data/file.bin".toList, "file.bin".toList, some 7, none,
    some "sha256value".toList, some "t0".toList, some "t0".toList, none,
    some "m0".toList, none⟩

/-- A later upsert for the same path carrying only an MD5
(`hash_sha256 = None`, as hasher.py `hash_worker` builds for an MD5 scan). -/
def c1UpdateRec : Row :=
  ⟨"/data/file.bin".toList, "file.bin".toList, some 7,
    some "md5value".toList, none, some "t1".toList, some "t1".toList, none,
    some "m0".toList, none⟩

/-- Two duplicate rows for C2 with identical name lengths, no copy
indicators, and equal path depth; only the creation timestamps differ. -/
def olderFileRow : Row :=
  ⟨"/x/aaaa.txt".toList, "aaaa.txt".toList, some 3, some "h".toList, none,
    none, none, none, none, none⟩

/-- See `olderFileRow`. -/
def newerFileRow : Row :=
  ⟨"/x/bbbb.txt".toList, "bbbb.txt".toList, some 3, some "h".toList, none,
    none, none, none, none, none⟩

/-- `os.path.getctime` oracle for C2: `/x/aaaa.txt` was created at
1,000,000, `/x/bbbb.txt` at 2,000,000. -/
def c2Ctime : Str → Option ℚ := fun p =>
  if p = "/x/aaaa.txt".toList then some 1000000 else some 2000000

/-- The path `/a/deep/photo_1.jpg` of the C3 scenario. -/
def pDeep : Str := "/a/deep/photo_1.jpg".toList

/-- The path `/a/photo.jpg` of the C3 scenario. -/
def pPhoto : Str := "/a/photo.jpg".toList

/-- The `/a/deep/photo_1.jpg` record of the C3 scenario. -/
def deepRow : Row :=
  ⟨pDeep, "photo_1.jpg".toList, some 3, some "h".toList, none,
    none, none, none, none, none⟩

/-- The `/a/photo.jpg` record of the C3 scenario. -/
def photoRow : Row :=
  ⟨pPhoto, "photo.jpg".toList, some 3, some "h".toList, none,
    none, none, none, none, none⟩

/-- `os.path.getctime` oracle for the C3 counterexample: `/a/photo.jpg` is
much older (ctime 0) than `/a/deep/photo_1.jpg` (ctime 20,000,000). -/
def c3Ctime : Str → Option ℚ := fun p =>
  if p = pDeep then some 20000000 else some 0

/-- A one-file tree used to witness the scan–hash–scan idempotence. -/
def c4Meta : Meta :=
  ⟨"/r/a.txt".toList, "a.txt".toList, 1, none, "t1".toList⟩

/-- A stored record whose `filepath` is the empty string — a falsy path,
on which the pooled and sequential missing-file checks disagree. -/
def c9EmptyPathRow : Row :=
  ⟨[], [], none, none, none, none, none, none, none, none⟩

end HashDB

namespace HashDB

/-! ## Theorems -/

/-- `score_file` written out when `getctime` succeeds. -/
theorem score_file_some (ct : Str → Option ℚ) (p : Str) (c : ℚ)
    (h : ct p = some c) :
    score_file ct p =
      (if hasCopyIndicator (pyLower (basename p)) then (10 : ℚ) else 0)
        + (countSep p : ℚ) + ((pyLower (basename p)).length : ℚ) / 10
        - c / 1000000 := by
  rw [score_file, h]

/-! ### C1 — the upsert write paths and absent hash columns -/

/-- C1 (code evaluated at the failing input): the store holds a SHA-256 for
`/data/file.bin` and no MD5; upserting a record that carries only an MD5
(`hash_sha256 = None`) through db.py `upsert_file_record` — and likewise
through the `ON CONFLICT` update of cli.py `cmd_scan.commit_batch` — leaves
the stored `hash_sha256` NULL: the previously known hash is overwritten with
"unknown", contrary to the claim. -/
theorem upsert_nulls_stored_hash :
    c1StoredRow.hash_sha256 = some "sha256value".toList
    ∧ c1UpdateRec.hash_md5 = some "md5value".toList
    ∧ c1UpdateRec.hash_sha256 = none
    ∧ (get_record_by_path (upsert_file_record [c1StoredRow] c1UpdateRec)
        "/data/file.bin".toList).map Row.hash_sha256 = some none
    ∧ (get_record_by_path (commitUpsert [c1StoredRow] c1UpdateRec)
        "/data/file.bin".toList).map Row.hash_sha256 = some none := by
  decide

/-! ### C10 — failed snapshot load degrades to a full rescan -/

/-- C10: if the one-time bulk load of the `path → modified_on` snapshot
raises (`dbLoad = none`), `build_work_list` proceeds with an empty snapshot
and returns every scanned file as needing a hash, in either rescan mode —
exactly the output of a full (non-incremental) scan; the failure never
propagates out of the scan. -/
theorem build_work_list_snapshot_failure (fs : List Meta) (rescanMode : Bool)
    (idx : List (Str × Option Str)) :
    build_work_list none rescanMode fs = fs
    ∧ build_work_list (some idx) false fs = fs := by
  constructor
  · apply List.filter_eq_self.mpr
    intro m _
    rfl
  · apply List.filter_eq_self.mpr
    intro m _
    show needs_rescan ((pyDictGet idx m.filepath).bind id) m false = true
    cases hx : (pyDictGet idx m.filepath).bind id <;> rfl

/-! ### C9 — the missing-file step -/

/-- On a path list with no empty string, the pooled truthiness filter
computes the sequential missing list. -/
theorem filterMap_truthy_eq_find_missing (ex : Str → Bool) :
    ∀ fps : List Str, (∀ fp ∈ fps, fp ≠ []) →
    (fps.map (fun fp => if ex fp then none else some fp)).filterMap
        (fun o => o.bind (fun fp => if fp = [] then none else some fp))
      = find_missing_files ex fps := by
  intro fps
  induction fps with
  | nil => intro _; rfl
  | cons fp rest ih =>
    intro h
    have hfp : fp ≠ [] := h fp (List.mem_cons_self fp rest)
    have hrest := ih (fun x hx => h x (List.mem_cons_of_mem fp hx))
    cases hex : ex fp <;>
      simp [find_missing_files, List.filter_cons, List.filterMap_cons, hex,
        hfp, hrest] at *

/-- On stores with no empty path, `find_missing_files_parallel` computes
`find_missing_files` for every thread count. -/
theorem find_missing_files_parallel_eq_of_ne (ex : Str → Bool) (t : Nat)
    (fps : List Str) (h : ∀ fp ∈ fps, fp ≠ []) :
    find_missing_files_parallel ex t fps = find_missing_files ex fps := by
  rw [find_missing_files_parallel]
  split
  · next hnil => rw [hnil]; rfl
  · split
    · rfl
    · exact filterMap_truthy_eq_find_missing ex fps h

/-- C9 counterexample: a store holding one record whose `filepath` is the
empty string, no path existing on disk, default worker count 8.  The
missing-file step keeps the record (the pooled branch's `if fp` truthiness
filter drops the falsy empty path from the missing list), although its path
does not exist — so the step does not delete exactly the records whose
paths are missing; with `threads = 1` the sequential branch does delete
it. -/
theorem missing_file_step_empty_path_counterexample :
    (fun _ : Str => false) c9EmptyPathRow.filepath = false
    ∧ missing_file_step (fun _ => false) 8 [c9EmptyPathRow] = [c9EmptyPathRow]
    ∧ [c9EmptyPathRow].filter (fun r => (fun _ : Str => false) r.filepath) = []
    ∧ missing_file_step (fun _ => false) 1 [c9EmptyPathRow] = [] := by
  decide

/-- C9 amended: for every store none of whose records carries the empty
string as `filepath` (every store the Scanner can produce), the
missing-file step of Maintenance deletes exactly the records whose paths do
not exist on disk at check time: the surviving store is the filter of the
old one by on-disk existence, so the record of a path deleted out-of-band
is removed and every record whose path still exists remains. -/
theorem missing_file_step_exact_nonempty (ex : Str → Bool) (threads : Nat)
    (store : List Row) (hne : ∀ r ∈ store, r.filepath ≠ []) :
    missing_file_step ex threads store = store.filter (fun r => ex r.filepath)
    ∧ ∀ r : Row, r ∈ missing_file_step ex threads store
        ↔ (r ∈ store ∧ ex r.filepath = true) := by
  have hmain :
      missing_file_step ex threads store = store.filter (fun r => ex r.filepath) := by
    rw [missing_file_step,
      find_missing_files_parallel_eq_of_ne ex threads (store.map Row.filepath)
        (by
          intro fp hfp
          obtain ⟨r, hr, rfl⟩ := List.mem_map.mp hfp
          exact hne r hr),
      remove_missing_from_db]
    apply List.filter_congr
    intro r hr
    have hmem : r.filepath ∈ store.map Row.filepath := List.mem_map_of_mem _ hr
    cases hex : ex r.filepath
    · have : r.filepath ∈ find_missing_files ex (store.map Row.filepath) := by
        rw [find_missing_files, List.mem_filter]
        exact ⟨hmem, by rw [hex]; rfl⟩
      simp [List.contains, List.elem_eq_mem, this]
    · have : r.filepath ∉ find_missing_files ex (store.map Row.filepath) := by
        rw [find_missing_files, List.mem_filter]
        rintro ⟨-, hbad⟩
        rw [hex] at hbad
        exact Bool.false_ne_true hbad
      simp [List.contains, List.elem_eq_mem, this]
  refine ⟨hmain, fun r => ?_⟩
  rw [hmain, List.mem_filter]

/-- Witness for `missing_file_step_exact_nonempty`: a one-record store whose
file has vanished from disk; the step deletes exactly that record. -/
theorem missing_file_step_exact_nonempty_witness :
    (∀ r ∈ [photoRow], r.filepath ≠ [])
    ∧ (missing_file_step (fun _ => false) 8 [photoRow]
        = [photoRow].filter (fun r => (fun _ : Str => false) r.filepath)
       ∧ ∀ r : Row, r ∈ missing_file_step (fun _ => false) 8 [photoRow]
          ↔ (r ∈ [photoRow] ∧ (fun _ : Str => false) r.filepath = true)) :=
  ⟨by decide,
    missing_file_step_exact_nonempty (fun _ => false) 8 [photoRow] (by decide)⟩

/-! ### C2 — the creation-timestamp term of the score -/

/-- C2 (code evaluated at the failing input): two duplicate candidates with
the same copy-indicator status (none), the same filename length (8) and the
same path-separator count (2), whose creation timestamps are 1,000,000
(`/x/aaaa.txt`) and 2,000,000 (`/x/bbbb.txt`).  In both listing orders
`choose_best_file` selects the NEWER file `/x/bbbb.txt`: the term
`score -= getctime(path)/1e6` under lower-score-wins biases toward newer
files, contrary to the claim (and to the code's own comment
"Prefer older files (lower ctime)"). -/
theorem choose_best_file_prefers_newer :
    c2Ctime olderFileRow.filepath = some 1000000
    ∧ c2Ctime newerFileRow.filepath = some 2000000
    ∧ hasCopyIndicator (pyLower (basename olderFileRow.filepath)) = false
    ∧ hasCopyIndicator (pyLower (basename newerFileRow.filepath)) = false
    ∧ (pyLower (basename olderFileRow.filepath)).length
        = (pyLower (basename newerFileRow.filepath)).length
    ∧ countSep olderFileRow.filepath = countSep newerFileRow.filepath
    ∧ choose_best_file c2Ctime [olderFileRow, newerFileRow] = some newerFileRow
    ∧ choose_best_file c2Ctime [newerFileRow, olderFileRow] = some newerFileRow := by
  have hOld : score_file c2Ctime olderFileRow.filepath = 14 / 5 - 1 := by
    rw [score_file_some c2Ctime olderFileRow.filepath 1000000 (by decide)]
    norm_num [show hasCopyIndicator (pyLower (basename olderFileRow.filepath))
        = false from by decide,
      show countSep olderFileRow.filepath = 2 from by decide,
      show (pyLower (basename olderFileRow.filepath)).length = 8 from by decide]
  have hNew : score_file c2Ctime newerFileRow.filepath = 14 / 5 - 2 := by
    rw [score_file_some c2Ctime newerFileRow.filepath 2000000 (by decide)]
    norm_num [show hasCopyIndicator (pyLower (basename newerFileRow.filepath))
        = false from by decide,
      show countSep newerFileRow.filepath = 2 from by decide,
      show (pyLower (basename newerFileRow.filepath)).length = 8 from by decide]
  refine ⟨by decide, by decide, by decide, by decide, by decide, by decide, ?_, ?_⟩
  · show some (if score_file c2Ctime newerFileRow.filepath
        < score_file c2Ctime olderFileRow.filepath
      then newerFileRow else olderFileRow) = some newerFileRow
    rw [if_pos (by rw [hOld, hNew]; norm_num)]
  · show some (if score_file c2Ctime olderFileRow.filepath
        < score_file c2Ctime newerFileRow.filepath
      then olderFileRow else newerFileRow) = some newerFileRow
    rw [if_neg (by rw [hOld, hNew]; norm_num)]

/-! ### C3 — the `/a/photo.jpg` keeper scenario -/

/-- C3 counterexample: for the two byte-identical files
`/a/deep/photo_1.jpg` (ctime 20,000,000) and `/a/photo.jpg` (ctime 0),
`choose_best_file` selects `/a/deep/photo_1.jpg` in both listing orders —
the claim's unconditional selection of `/a/photo.jpg` fails for this pair of
creation timestamps. -/
theorem photo_keeper_counterexample :
    photoRow.filepath ≠ deepRow.filepath
    ∧ c3Ctime pDeep = some 20000000
    ∧ c3Ctime pPhoto = some 0
    ∧ choose_best_file c3Ctime [photoRow, deepRow] = some deepRow
    ∧ choose_best_file c3Ctime [deepRow, photoRow] = some deepRow := by
  have hDeep : score_file c3Ctime deepRow.filepath = 141 / 10 - 20 := by
    rw [score_file_some c3Ctime deepRow.filepath 20000000 (by decide)]
    norm_num [show hasCopyIndicator (pyLower (basename deepRow.filepath))
        = true from by decide,
      show countSep deepRow.filepath = 3 from by decide,
      show (pyLower (basename deepRow.filepath)).length = 11 from by decide]
  have hPhoto : score_file c3Ctime photoRow.filepath = 29 / 10 := by
    rw [score_file_some c3Ctime photoRow.filepath 0 (by decide)]
    norm_num [show hasCopyIndicator (pyLower (basename photoRow.filepath))
        = false from by decide,
      show countSep photoRow.filepath = 2 from by decide,
      show (pyLower (basename photoRow.filepath)).length = 9 from by decide]
  refine ⟨by decide, by decide, by decide, ?_, ?_⟩
  · show some (if score_file c3Ctime deepRow.filepath
        < score_file c3Ctime photoRow.filepath
      then deepRow else photoRow) = some deepRow
    rw [if_pos (by rw [hDeep, hPhoto]; norm_num)]
  · show some (if score_file c3Ctime photoRow.filepath
        < score_file c3Ctime deepRow.filepath
      then photoRow else deepRow) = some deepRow
    rw [if_neg (by rw [hDeep, hPhoto]; norm_num)]

/-- C3 amended: for the duplicate pair `/a/deep/photo_1.jpg` (ctime `cA`)
and `/a/photo.jpg` (ctime `cB`), `choose_best_file` selects `/a/photo.jpg`
— in either listing order — whenever `cA − cB < 11,200,000` (in particular
whenever the two creation timestamps are equal, or `/a/photo.jpg` is not
more than 11.2·10⁶ seconds older): the fixed-score gap is
(10 + 3 + 11/10) − (2 + 9/10) = 11.2, which the timestamp term overrides
exactly when the ctime difference reaches 11.2·10⁶. -/
theorem photo_keeper_amended (ct : Str → Option ℚ) (cA cB : ℚ)
    (hA : ct pDeep = some cA) (hB : ct pPhoto = some cB)
    (hgap : cA - cB < 11200000) :
    choose_best_file ct [deepRow, photoRow] = some photoRow
    ∧ choose_best_file ct [photoRow, deepRow] = some photoRow := by
  have hDeep : score_file ct deepRow.filepath = 141 / 10 - cA / 1000000 := by
    rw [score_file_some ct deepRow.filepath cA hA]
    norm_num [show hasCopyIndicator (pyLower (basename deepRow.filepath))
        = true from by decide,
      show countSep deepRow.filepath = 3 from by decide,
      show (pyLower (basename deepRow.filepath)).length = 11 from by decide]
  have hPhoto : score_file ct photoRow.filepath = 29 / 10 - cB / 1000000 := by
    rw [score_file_some ct photoRow.filepath cB hB]
    norm_num [show hasCopyIndicator (pyLower (basename photoRow.filepath))
        = false from by decide,
      show countSep photoRow.filepath = 2 from by decide,
      show (pyLower (basename photoRow.filepath)).length = 9 from by decide]
  constructor
  · show some (if score_file ct photoRow.filepath
        < score_file ct deepRow.filepath
      then photoRow else deepRow) = some photoRow
    rw [if_pos (by rw [hDeep, hPhoto]; linarith)]
  · show some (if score_file ct deepRow.filepath
        < score_file ct photoRow.filepath
      then deepRow else photoRow) = some photoRow
    rw [if_neg (by rw [hDeep, hPhoto]; intro hlt; linarith)]

/-- Witness for `photo_keeper_amended` at the all-zero clock: both files
created at timestamp 0. -/
theorem photo_keeper_amended_witness :
    (fun _ : Str => some (0 : ℚ)) pDeep = some 0
    ∧ (fun _ : Str => some (0 : ℚ)) pPhoto = some 0
    ∧ (0 : ℚ) - 0 < 11200000
    ∧ (choose_best_file (fun _ => some 0) [deepRow, photoRow] = some photoRow
       ∧ choose_best_file (fun _ => some 0) [photoRow, deepRow] = some photoRow) :=
  ⟨rfl, rfl, by norm_num,
    photo_keeper_amended (fun _ => some 0) 0 0 rfl rfl (by norm_num)⟩

/-! ### C5 — duplicate grouping -/

/-- Appending a row to its group extends exactly that group. -/
theorem groupFor_addRow_self (gs : List (Str × List Row)) (h : Str) (r : Row) :
    groupFor (addRow gs h r) h = groupFor gs h ++ [r] := by
  induction gs with
  | nil => simp [addRow, groupFor]
  | cons p rest ih =>
    obtain ⟨k, g⟩ := p
    by_cases hk : k = h
    · simp [addRow, hk, groupFor]
    · simp [addRow, hk, groupFor, ih]

/-- Appending a row to the group of `h` leaves other groups unchanged. -/
theorem groupFor_addRow_ne (gs : List (Str × List Row)) (h : Str) (r : Row)
    (h' : Str) (hne : h' ≠ h) :
    groupFor (addRow gs h r) h' = groupFor gs h' := by
  have hne' : ∀ {k : Str}, k = h → ¬k = h' :=
    fun hk hk' => hne (hk'.symm.trans hk)
  induction gs with
  | nil =>
    simp only [addRow, groupFor]
    rw [if_neg (hne' rfl)]
  | cons p rest ih =>
    obtain ⟨k, g⟩ := p
    simp only [addRow]
    by_cases hk : k = h
    · rw [if_pos hk]
      simp only [groupFor]
      rw [if_neg (hne' hk), if_neg (hne' hk)]
    · rw [if_neg hk]
      simp only [groupFor]
      by_cases hk' : k = h'
      · rw [if_pos hk', if_pos hk']
      · rw [if_neg hk', if_neg hk', ih]

/-- `addRow` keeps the key sequence, appending `h` only when new. -/
theorem keys_addRow (gs : List (Str × List Row)) (h : Str) (r : Row) :
    (addRow gs h r).map Prod.fst =
      if h ∈ gs.map Prod.fst then gs.map Prod.fst
      else gs.map Prod.fst ++ [h] := by
  induction gs with
  | nil => simp [addRow]
  | cons p rest ih =>
    obtain ⟨k, g⟩ := p
    simp only [addRow]
    by_cases hk : k = h
    · rw [if_pos hk, List.map_cons, List.map_cons,
        if_pos (by rw [hk]; exact List.mem_cons_self _ _)]
    · rw [if_neg hk]
      by_cases hin : h ∈ rest.map Prod.fst
      · rw [List.map_cons, ih, if_pos hin, List.map_cons,
          if_pos (List.mem_cons_of_mem _ hin)]
      · rw [List.map_cons, ih, if_neg hin, List.map_cons,
          if_neg (fun hm => by
            rcases List.mem_cons.mp hm with he | hm'
            · exact hk he.symm
            · exact hin hm'),
          List.cons_append]

/-- `addRow` preserves distinctness of the keys. -/
theorem nodup_keys_addRow (gs : List (Str × List Row)) (h : Str) (r : Row)
    (hnd : (gs.map Prod.fst).Nodup) :
    ((addRow gs h r).map Prod.fst).Nodup := by
  rw [keys_addRow]
  split
  · exact hnd
  · next habs => simp [List.nodup_append, hnd, habs]

/-- With distinct keys, a member pair's group is `groupFor` of its key. -/
theorem groupFor_of_mem (gs : List (Str × List Row))
    (hnd : (gs.map Prod.fst).Nodup) (k : Str) (g : List Row)
    (hm : (k, g) ∈ gs) : groupFor gs k = g := by
  induction gs with
  | nil => cases hm
  | cons p rest ih =>
    obtain ⟨k', g'⟩ := p
    rcases List.mem_cons.mp hm with heq | htail
    · injection heq with h1 h2
      simp only [groupFor]
      rw [if_pos h1.symm]
      exact h2.symm
    · have hk' : k' ≠ k := by
        intro hkk
        have : k ∈ rest.map Prod.fst :=
          List.mem_map_of_mem Prod.fst htail
        rw [List.map_cons, List.nodup_cons, hkk] at hnd
        exact hnd.1 this
      simp only [groupFor, if_neg hk']
      exact ih (by rw [List.map_cons, List.nodup_cons] at hnd; exact hnd.2) htail

/-- A nonempty `groupFor` entry is an actual member pair. -/
theorem mem_of_groupFor_ne_nil (gs : List (Str × List Row)) (k : Str)
    (hne : groupFor gs k ≠ []) : (k, groupFor gs k) ∈ gs := by
  induction gs with
  | nil => exact absurd rfl hne
  | cons p rest ih =>
    obtain ⟨k', g'⟩ := p
    by_cases hk : k' = k
    · subst hk
      simp [groupFor]
    · rw [groupFor, if_neg hk] at hne ⊢
      exact List.mem_cons_of_mem _ (ih hne)

/-- The content of each group after folding the grouping loop: exactly the
processed rows whose selected hash equals the key, in scan order. -/
theorem groupFor_foldl (ht : HashType) (l : List Row) :
    ∀ (gs : List (Str × List Row)) (h : Str),
      groupFor (l.foldl (groupStep ht) gs) h
        = groupFor gs h ++ l.filter (fun r => decide (colOf ht r = some h)) := by
  induction l with
  | nil => intro gs h; simp
  | cons r l ih =>
    intro gs h
    rw [List.foldl_cons, ih]
    cases hcol : colOf ht r with
    | none =>
      rw [groupStep, hcol]
      simp [List.filter_cons, hcol]
    | some h0 =>
      rw [groupStep, hcol]
      by_cases hh : h0 = h
      · subst hh
        rw [groupFor_addRow_self]
        simp [List.filter_cons, hcol]
      · rw [groupFor_addRow_ne gs h0 r h (fun he => hh he.symm)]
        simp [List.filter_cons, hcol, hh]

/-- Folding the grouping loop preserves distinctness of keys. -/
theorem nodup_keys_foldl (ht : HashType) (l : List Row) :
    ∀ gs : List (Str × List Row), (gs.map Prod.fst).Nodup →
      ((l.foldl (groupStep ht) gs).map Prod.fst).Nodup := by
  induction l with
  | nil => intro gs hnd; exact hnd
  | cons r l ih =>
    intro gs hnd
    rw [List.foldl_cons]
    apply ih
    rw [groupStep]
    cases colOf ht r with
    | none => exact hnd
    | some h0 => exact nodup_keys_addRow gs h0 r hnd

/-- Filtering down to the non-NULL rows first does not change the per-hash
filters. -/
theorem filter_nonNull_filter (ht : HashType) (rows : List Row) (hv : Str) :
    (rows.filter (fun r => (colOf ht r).isSome)).filter
        (fun r => decide (colOf ht r = some hv))
      = rows.filter (fun r => decide (colOf ht r = some hv)) := by
  induction rows with
  | nil => rfl
  | cons r l ih =>
    by_cases hc : colOf ht r = some hv
    · simp [List.filter_cons, hc, ih]
    · cases hcol : colOf ht r <;>
        simp [List.filter_cons, hcol, hcol ▸ hc, ih]

/-- C5: `find_duplicates` returns exactly the duplicate sets — each returned
pair `(hv, g)` satisfies `g` = all stored records whose selected hash column
equals `hv` (in scan order) and `|g| ≥ 2`; conversely every hash value held
by at least two records yields its pair; records whose selected column is
NULL belong to no returned group; and a record whose hash value is unique
among the stored records belongs to no returned group. -/
theorem find_duplicates_correct (ht : HashType) (rows : List Row) :
    (∀ hv g, (hv, g) ∈ find_duplicates ht rows →
        g = rows.filter (fun r => decide (colOf ht r = some hv)) ∧ 2 ≤ g.length)
    ∧ (∀ hv, 2 ≤ (rows.filter (fun r => decide (colOf ht r = some hv))).length →
        (hv, rows.filter (fun r => decide (colOf ht r = some hv)))
          ∈ find_duplicates ht rows)
    ∧ (∀ r ∈ rows, colOf ht r = none →
        ∀ hv g, (hv, g) ∈ find_duplicates ht rows → r ∉ g)
    ∧ (∀ r hv, colOf ht r = some hv →
        (rows.filter (fun r' => decide (colOf ht r' = some hv))).length = 1 →
        ∀ hv' g, (hv', g) ∈ find_duplicates ht rows → r ∉ g) := by
  have hfold : ∀ hv,
      groupFor ((rows.filter (fun r => (colOf ht r).isSome)).foldl
          (groupStep ht) []) hv
        = rows.filter (fun r => decide (colOf ht r = some hv)) := by
    intro hv
    rw [groupFor_foldl ht _ [] hv, filter_nonNull_filter]
    rfl
  have hnd : (((rows.filter (fun r => (colOf ht r).isSome)).foldl
      (groupStep ht) []).map Prod.fst).Nodup :=
    nodup_keys_foldl ht _ [] List.nodup_nil
  have hmem : ∀ hv g, (hv, g) ∈ find_duplicates ht rows →
      g = rows.filter (fun r => decide (colOf ht r = some hv)) ∧ 2 ≤ g.length := by
    intro hv g hm
    rw [find_duplicates, List.mem_filter] at hm
    obtain ⟨hin, hlen⟩ := hm
    have hg : g = rows.filter (fun r => decide (colOf ht r = some hv)) := by
      rw [← hfold hv]
      exact (groupFor_of_mem _ hnd hv g hin).symm
    refine ⟨hg, ?_⟩
    have : 1 < g.length := of_decide_eq_true hlen
    omega
  refine ⟨hmem, ?_, ?_, ?_⟩
  · intro hv hlen
    rw [find_duplicates, List.mem_filter]
    have hne : rows.filter (fun r => decide (colOf ht r = some hv)) ≠ [] := by
      intro hnil
      rw [hnil] at hlen
      simp at hlen
    constructor
    · have := mem_of_groupFor_ne_nil
        ((rows.filter (fun r => (colOf ht r).isSome)).foldl (groupStep ht) []) hv
        (by rw [hfold hv]; exact hne)
      rw [hfold hv] at this
      exact this
    · simp only [decide_eq_true_eq]
      omega
  · intro r hr hnone hv g hm
    obtain ⟨hg, -⟩ := hmem hv g hm
    rw [hg]
    intro hin
    have := (List.mem_filter.mp hin).2
    rw [hnone] at this
    exact absurd (of_decide_eq_true this) (by simp)
  · intro r hv hcol huniq hv' g hm hin
    obtain ⟨hg, hlen⟩ := hmem hv' g hm
    rw [hg] at hin hlen
    have hcol' : colOf ht r = some hv' := of_decide_eq_true (List.mem_filter.mp hin).2
    have hvv : hv' = hv := by
      rw [hcol] at hcol'
      injection hcol' with h1
      exact h1.symm
    rw [hvv] at hlen
    omega

/-! ### C7 — batched delivery in run_hashing -/

/-- Invariant of the batching loop: the pending buffer stays strictly below
`batchSize`, every flushed batch has exactly `batchSize` records, and
batches-so-far plus buffer hold exactly the successfully hashed records. -/
theorem hashBatch_fold_inv (bs : Nat) (hb : 1 ≤ bs) (l : List (Option Row)) :
    ∀ st : List (List Row) × List Row,
      st.snd.length < bs →
      (∀ b ∈ st.fst, b.length = bs) →
      ((l.foldl (hashBatchStep bs) st).snd.length < bs
       ∧ (∀ b ∈ (l.foldl (hashBatchStep bs) st).fst, b.length = bs)
       ∧ (l.foldl (hashBatchStep bs) st).fst.flatten
            ++ (l.foldl (hashBatchStep bs) st).snd
          = st.fst.flatten ++ st.snd ++ l.filterMap id) := by
  induction l with
  | nil =>
    intro st h1 h2
    exact ⟨h1, h2, by simp⟩
  | cons orec l ih =>
    intro st h1 h2
    rw [List.foldl_cons]
    cases orec with
    | none =>
      have hstep : hashBatchStep bs st none = st := rfl
      rw [hstep]
      obtain ⟨g1, g2, g3⟩ := ih st h1 h2
      exact ⟨g1, g2, by rw [g3]; simp⟩
    | some r =>
      by_cases hfull : bs ≤ (st.snd ++ [r]).length
      · have hstep : hashBatchStep bs st (some r)
            = (st.fst ++ [st.snd ++ [r]], []) := by
          simp only [hashBatchStep]
          rw [if_pos hfull]
        rw [hstep]
        have hlen : (st.snd ++ [r]).length = bs := by
          rw [List.length_append, List.length_cons, List.length_nil] at hfull ⊢
          omega
        obtain ⟨g1, g2, g3⟩ := ih (st.fst ++ [st.snd ++ [r]], [])
          (by simpa using hb)
          (by
            intro b hbmem
            rcases List.mem_append.mp hbmem with hold | hnew
            · exact h2 b hold
            · rw [List.mem_singleton.mp hnew]
              exact hlen)
        refine ⟨g1, g2, ?_⟩
        rw [g3]
        simp [List.flatten_append, List.append_assoc]
      · have hstep : hashBatchStep bs st (some r) = (st.fst, st.snd ++ [r]) := by
          simp only [hashBatchStep]
          rw [if_neg hfull]
        rw [hstep]
        obtain ⟨g1, g2, g3⟩ := ih (st.fst, st.snd ++ [r])
          (Nat.lt_of_not_le hfull) h2
        refine ⟨g1, g2, ?_⟩
        rw [g3]
        simp [List.append_assoc]

/-- C7: with batch size `bs ≥ 1`, `run_hashing` delivers every successfully
hashed record to the batch callback exactly once (the concatenation of the
callback's batches is the results list, in completion order); the callback
fires precisely when the buffer reaches `bs` — every batch except possibly
the final remainder has exactly `bs` records, every batch is nonempty and at
most `bs` long — and at every point of the run at most `bs − 1` records sit
buffered unflushed. -/
theorem run_hashing_batch_contract (bs : Nat) (orecs : List (Option Row))
    (hb : 1 ≤ bs) :
    (run_hashing_batches bs orecs).flatten = run_hashing_results orecs
    ∧ (∀ b ∈ run_hashing_batches bs orecs, b ≠ [] ∧ b.length ≤ bs)
    ∧ (∀ b ∈ (run_hashing_batches bs orecs).dropLast, b.length = bs)
    ∧ (∀ pre suf : List (Option Row), orecs = pre ++ suf →
        (pre.foldl (hashBatchStep bs) ([], [])).snd.length < bs) := by
  obtain ⟨g1, g2, g3⟩ := hashBatch_fold_inv bs hb orecs ([], [])
    (by simpa using hb) (by intro b hbm; cases hbm)
  have hg3 : (orecs.foldl (hashBatchStep bs) ([], [])).fst.flatten
      ++ (orecs.foldl (hashBatchStep bs) ([], [])).snd
      = orecs.filterMap id := by simpa using g3
  refine ⟨?_, ?_, ?_, ?_⟩
  · rw [run_hashing_batches, run_hashing_results]
    by_cases hemp : (orecs.foldl (hashBatchStep bs) ([], [])).snd.isEmpty
    · rw [if_pos hemp]
      rw [List.isEmpty_iff] at hemp
      rw [hemp, List.append_nil] at hg3
      exact hg3
    · rw [if_neg hemp]
      rw [List.flatten_append, List.flatten_cons, List.flatten_nil,
        List.append_nil]
      exact hg3
  · intro b hbm
    rw [run_hashing_batches] at hbm
    by_cases hemp : (orecs.foldl (hashBatchStep bs) ([], [])).snd.isEmpty
    · rw [if_pos hemp] at hbm
      have hbl := g2 b hbm
      refine ⟨fun hnil => ?_, by omega⟩
      rw [hnil] at hbl
      simp at hbl
      omega
    · rw [if_neg hemp] at hbm
      rcases List.mem_append.mp hbm with hold | hnew
      · have hbl := g2 b hold
        refine ⟨fun hnil => ?_, by omega⟩
        rw [hnil] at hbl
        simp at hbl
        omega
      · rw [List.mem_singleton.mp hnew]
        refine ⟨fun hnil => ?_, by omega⟩
        rw [hnil] at hemp
        exact hemp rfl
  · intro b hbm
    rw [run_hashing_batches] at hbm
    by_cases hemp : (orecs.foldl (hashBatchStep bs) ([], [])).snd.isEmpty
    · rw [if_pos hemp] at hbm
      exact g2 b (List.dropLast_subset _ hbm)
    · rw [if_neg hemp, List.dropLast_concat] at hbm
      exact g2 b hbm
  · intro pre suf heq
    exact (hashBatch_fold_inv bs hb pre ([], [])
      (by simpa using hb) (by intro b hbm; cases hbm)).1

/-- Witness for `run_hashing_batch_contract`: batch size 2 over three
successful hashes and one failure. -/
theorem run_hashing_batch_contract_witness :
    (1 ≤ 2)
    ∧ ((run_hashing_batches 2
          [some olderFileRow, none, some newerFileRow, some photoRow]).flatten
        = run_hashing_results
            [some olderFileRow, none, some newerFileRow, some photoRow]
       ∧ (∀ b ∈ run_hashing_batches 2
            [some olderFileRow, none, some newerFileRow, some photoRow],
            b ≠ [] ∧ b.length ≤ 2)
       ∧ (∀ b ∈ (run_hashing_batches 2
            [some olderFileRow, none, some newerFileRow, some photoRow]).dropLast,
            b.length = 2)
       ∧ (∀ pre suf : List (Option Row),
            [some olderFileRow, none, some newerFileRow, some photoRow]
              = pre ++ suf →
            (pre.foldl (hashBatchStep 2) ([], [])).snd.length < 2)) :=
  ⟨by decide,
    run_hashing_batch_contract 2
      [some olderFileRow, none, some newerFileRow, some photoRow] (by decide)⟩

/-! ### C8 — per-file outcomes and failure isolation -/

/-- Splitting the group at the keeper's path splits its length. -/
theorem filter_keep_split (rows : List Row) (keep : Row) :
    (rows.filter (fun r => decide (r.filepath = keep.filepath))).length
      + (rows.filter (fun r => !decide (r.filepath = keep.filepath))).length
      = rows.length := by
  induction rows with
  | nil => rfl
  | cons r rest ih =>
    by_cases hp : r.filepath = keep.filepath <;>
      simp [List.filter_cons, hp] <;> omega

/-- With distinct paths, exactly one row carries the keeper's path. -/
theorem filter_keep_path_length (rows : List Row) (keep : Row)
    (hnd : (rows.map Row.filepath).Nodup) (hk : keep ∈ rows) :
    (rows.filter (fun r => decide (r.filepath = keep.filepath))).length = 1 := by
  induction rows with
  | nil => cases hk
  | cons r rest ih =>
    rw [List.map_cons, List.nodup_cons] at hnd
    by_cases hp : r.filepath = keep.filepath
    · rw [List.filter_cons, if_pos (by simpa using hp)]
      have hrest : rest.filter (fun r' => decide (r'.filepath = keep.filepath)) = [] := by
        apply List.filter_eq_nil_iff.mpr
        intro r' hr' hbad
        have : r'.filepath = keep.filepath := of_decide_eq_true hbad
        exact hnd.1 (by rw [hp, ← this]; exact List.mem_map_of_mem _ hr')
      rw [hrest]
      rfl
    · rw [List.filter_cons, if_neg (by simpa using hp)]
      have hkr : keep ∈ rest := by
        rcases List.mem_cons.mp hk with heq | htail
        · exact absurd (heq ▸ rfl) hp
        · exact htail
      exact ih hnd.2 hkr

/-- The action list covers, in order, exactly the rows whose path differs
from the keeper's. -/
theorem delete_or_quarantine_map_fst (safeDelete : Bool)
    (mv : Str → Except Str Str) (rm : Str → Except Str Unit)
    (rows : List Row) (keep : Row) :
    (delete_or_quarantine safeDelete mv rm rows keep).map Prod.fst
      = (rows.filter (fun r => !decide (r.filepath = keep.filepath))).map
          Row.filepath := by
  induction rows with
  | nil => rfl
  | cons r rest ih =>
    simp only [delete_or_quarantine] at ih ⊢
    by_cases hp : r.filepath = keep.filepath
    · simp [List.filterMap_cons, List.filter_cons, hp, ih]
    · simp [List.filterMap_cons, List.filter_cons, hp, ih]

/-- C8: `delete_or_quarantine` emits exactly one `(path, outcome)` entry for
every row of the group other than the keeper (none for the keeper), with the
outcome recording the move destination, the deletion, or the caught failure
as `failed: <reason>`; and through `dedupe`, a non-keeper of any duplicate
group always receives its entry in the run's accumulated action list — a
per-file failure is confined to its own entry and aborts neither the rest of
the group nor the remaining groups. -/
theorem delete_or_quarantine_contract (safeDelete : Bool)
    (mv : Str → Except Str Str) (rm : Str → Except Str Unit)
    (rows : List Row) (keep : Row)
    (hnd : (rows.map Row.filepath).Nodup) (hk : keep ∈ rows) :
    ((delete_or_quarantine safeDelete mv rm rows keep).map Prod.fst
        = (rows.filter (fun r => !decide (r.filepath = keep.filepath))).map
            Row.filepath)
    ∧ (delete_or_quarantine safeDelete mv rm rows keep).length + 1
        = rows.length
    ∧ (∀ pa ∈ delete_or_quarantine safeDelete mv rm rows keep,
        pa.fst ≠ keep.filepath
        ∧ ((safeDelete = true
              ∧ ∃ d, mv pa.fst = Except.ok d ∧ pa.snd = movedToStr d)
           ∨ (safeDelete = false ∧ rm pa.fst = Except.ok () ∧ pa.snd = deletedStr)
           ∨ (∃ e, pa.snd = failedStr e
               ∧ ((safeDelete = true ∧ mv pa.fst = Except.error e)
                  ∨ (safeDelete = false ∧ rm pa.fst = Except.error e)))))
    ∧ (∀ r ∈ rows, r.filepath ≠ keep.filepath →
        ∃ a, (r.filepath, a) ∈ delete_or_quarantine safeDelete mv rm rows keep)
    ∧ (∀ (ct : Str → Option ℚ) (ht : HashType) (allRows : List Row)
          (hv : Str) (g : List Row) (kp r : Row),
        (hv, g) ∈ find_duplicates ht allRows →
        choose_best_file ct g = some kp →
        r ∈ g → r.filepath ≠ kp.filepath →
        ∃ a, (r.filepath, a) ∈ (dedupe ct mv rm safeDelete ht allRows).snd) := by
  have houtof : ∀ (rows' : List Row) (keep' r : Row), r ∈ rows' →
      r.filepath ≠ keep'.filepath →
      ∃ a, (r.filepath, a) ∈ delete_or_quarantine safeDelete mv rm rows' keep' := by
    intro rows' keep' r hr hne
    refine ⟨(if safeDelete then
        match mv r.filepath with
        | Except.ok dest => movedToStr dest
        | Except.error e => failedStr e
      else
        match rm r.filepath with
        | Except.ok _ => deletedStr
        | Except.error e => failedStr e),
      List.mem_filterMap.mpr ⟨r, hr, ?_⟩⟩
    rw [if_neg hne]
  refine ⟨delete_or_quarantine_map_fst safeDelete mv rm rows keep, ?_, ?_,
    houtof rows keep, ?_⟩
  · have hlen : (delete_or_quarantine safeDelete mv rm rows keep).length
        = (rows.filter (fun r => !decide (r.filepath = keep.filepath))).length := by
      have h1 := congrArg List.length
        (delete_or_quarantine_map_fst safeDelete mv rm rows keep)
      simpa using h1
    have hsplit := filter_keep_split rows keep
    have hone := filter_keep_path_length rows keep hnd hk
    omega
  · intro pa hpa
    obtain ⟨r, hr, hfr⟩ := List.mem_filterMap.mp hpa
    by_cases hp : r.filepath = keep.filepath
    · rw [if_pos hp] at hfr
      cases hfr
    · rw [if_neg hp] at hfr
      injection hfr with hpair
      subst hpair
      refine ⟨hp, ?_⟩
      cases safeDelete with
      | true =>
        cases hmv : mv r.filepath with
        | ok d => exact Or.inl ⟨rfl, d, rfl, by simp⟩
        | error e =>
          exact Or.inr (Or.inr ⟨e, by simp, Or.inl ⟨rfl, rfl⟩⟩)
      | false =>
        cases hrm : rm r.filepath with
        | ok u =>
          cases u
          exact Or.inr (Or.inl ⟨rfl, rfl, by simp⟩)
        | error e =>
          exact Or.inr (Or.inr ⟨e, by simp, Or.inr ⟨rfl, rfl⟩⟩)
  · intro ct ht allRows hv g kp r hg hchoose hr hne
    obtain ⟨a, ha⟩ := houtof g kp r hr hne
    refine ⟨a, ?_⟩
    have hfold : ∀ (l : List (Str × List Row)) (init : List (Str × Str)),
        l.foldl (fun acc pr =>
          acc ++ match choose_best_file ct pr.snd with
            | some keep' => delete_or_quarantine safeDelete mv rm pr.snd keep'
            | none => []) init
        = init ++ (l.map (fun pr =>
            match choose_best_file ct pr.snd with
            | some keep' => delete_or_quarantine safeDelete mv rm pr.snd keep'
            | none => [])).flatten := by
      intro l
      induction l with
      | nil => intro init; simp
      | cons pr l ih =>
        intro init
        rw [List.foldl_cons, ih, List.map_cons, List.flatten_cons,
          List.append_assoc]
    rw [dedupe, hfold, List.nil_append]
    apply List.mem_flatten.mpr
    refine ⟨delete_or_quarantine safeDelete mv rm g kp, ?_, ha⟩
    apply List.mem_map.mpr
    refine ⟨(hv, g), hg, ?_⟩
    rw [hchoose]

/-- Witness for `delete_or_quarantine_contract`: a two-row group whose
quarantine move fails, keeper `/a/photo.jpg`. -/
theorem delete_or_quarantine_contract_witness :
    (([photoRow, deepRow].map Row.filepath).Nodup ∧ photoRow ∈ [photoRow, deepRow])
    ∧ (delete_or_quarantine true (fun _ => Except.error "disk full".toList)
          (fun _ => Except.ok ()) [photoRow, deepRow] photoRow).map Prod.fst
        = ([photoRow, deepRow].filter
            (fun r => !decide (r.filepath = photoRow.filepath))).map Row.filepath :=
  ⟨⟨by decide, by decide⟩,
    (delete_or_quarantine_contract true (fun _ => Except.error "disk full".toList)
      (fun _ => Except.ok ()) [photoRow, deepRow] photoRow
      (by decide) (by decide)).1⟩

/-! ### C6 — safe_move never overwrites -/

/-- `os.path.basename` never contains the path separator. -/
theorem basename_no_sep (p : Str) : '/' ∉ basename p := by
  have hgen : ∀ (q : Str) (acc : Str), '/' ∉ acc →
      '/' ∉ q.foldl (fun acc c => if c = '/' then [] else acc ++ [c]) acc := by
    intro q
    induction q with
    | nil => intro acc h; exact h
    | cons c cs ih =>
      intro acc h
      rw [List.foldl_cons]
      by_cases hc : c = '/'
      · rw [if_pos hc]
        exact ih [] (List.not_mem_nil '/')
      · rw [if_neg hc]
        apply ih
        intro hmem
        rcases List.mem_append.mp hmem with hacc | hone
        · exact h hacc
        · exact hc (List.mem_singleton.mp hone).symm
  exact hgen p [] (List.not_mem_nil '/')

/-- `str(n)` is never the empty string. -/
theorem natRepr_ne_nil (n : Nat) : natRepr n ≠ [] := by
  cases n with
  | zero => simp [natRepr]
  | succ m =>
    rw [natRepr, if_neg (Nat.succ_ne_zero m)]
    simp [natDigitsF]

/-- With enough fuel, `natDigitsF` inverts through `natVal`. -/
theorem natVal_natDigitsF : ∀ fuel n : Nat, n ≤ fuel →
    natVal (natDigitsF fuel n) = n := by
  intro fuel
  induction fuel with
  | zero =>
    intro n hn
    interval_cases n
    rfl
  | succ f ih =>
    intro n hn
    cases n with
    | zero => rfl
    | succ m =>
      rw [natDigitsF, natVal, List.foldr_cons]
      have hdiv : (m + 1) / 10 ≤ f := by omega
      rw [show ((natDigitsF f ((m + 1) / 10)).foldr
          (fun d acc => d + 10 * acc) 0) = natVal (natDigitsF f ((m + 1) / 10))
        from rfl, ih _ hdiv]
      omega

/-- Every digit produced by `natDigitsF` is below 10. -/
theorem natDigitsF_lt_ten : ∀ fuel n : Nat, ∀ d ∈ natDigitsF fuel n, d < 10 := by
  intro fuel
  induction fuel with
  | zero =>
    intro n d hd
    cases n <;> cases hd
  | succ f ih =>
    intro n d hd
    cases n with
    | zero => cases hd
    | succ m =>
      rw [natDigitsF] at hd
      rcases List.mem_cons.mp hd with heq | htail
      · omega
      · exact ih _ d htail

/-- `digitChar` is injective on decimal digits. -/
theorem digitChar_inj_lt : ∀ d < 10, ∀ e < 10, digitChar d = digitChar e → d = e := by
  decide

/-- `map digitChar` is injective on digit lists. -/
theorem map_digitChar_inj : ∀ l1 l2 : List Nat, (∀ d ∈ l1, d < 10) →
    (∀ d ∈ l2, d < 10) → l1.map digitChar = l2.map digitChar → l1 = l2 := by
  intro l1
  induction l1 with
  | nil =>
    intro l2 _ _ h
    cases l2 with
    | nil => rfl
    | cons e l2 => cases h
  | cons d l1 ih =>
    intro l2 h1 h2 h
    cases l2 with
    | nil => cases h
    | cons e l2 =>
      rw [List.map_cons, List.map_cons] at h
      injection h with hde hrest
      have hd := h1 d (List.mem_cons_self d l1)
      have he := h2 e (List.mem_cons_self e l2)
      rw [digitChar_inj_lt d hd e he hde,
        ih l2 (fun x hx => h1 x (List.mem_cons_of_mem d hx))
          (fun x hx => h2 x (List.mem_cons_of_mem e hx)) hrest]

/-- `str` is injective on positive counters. -/
theorem natRepr_inj (m n : Nat) (hm : 1 ≤ m) (hn : 1 ≤ n)
    (h : natRepr m = natRepr n) : m = n := by
  rw [natRepr, if_neg (by omega), natRepr, if_neg (by omega)] at h
  have hrev := List.reverse_injective h
  have hdig := map_digitChar_inj _ _ (natDigitsF_lt_ten m m)
    (natDigitsF_lt_ten n n) hrev
  have h1 := natVal_natDigitsF m m le_rfl
  have h2 := natVal_natDigitsF n n le_rfl
  rw [hdig, h2] at h1
  exact h1.symm

/-- `splitAtLastDot` splits `b` into two adjacent pieces. -/
theorem splitAtLastDot_append : ∀ (b pre ext : Str),
    splitAtLastDot b = some (pre, ext) → pre ++ ext = b := by
  intro b
  induction b with
  | nil => intro pre ext h; cases h
  | cons c cs ih =>
    intro pre ext h
    rw [splitAtLastDot] at h
    cases hcs : splitAtLastDot cs with
    | some pe =>
      obtain ⟨p, e⟩ := pe
      rw [hcs] at h
      injection h with hpair
      injection hpair with hpre hext
      rw [← hpre, ← hext, List.cons_append, ih p e hcs]
    | none =>
      rw [hcs] at h
      by_cases hc : c = '.'
      · rw [if_pos hc] at h
        injection h with hpair
        injection hpair with hpre hext
        rw [← hpre, ← hext]
        rfl
      · rw [if_neg hc] at h
        cases h

/-- `splitext` when the basename has no usable dot. -/
theorem splitext_eq_none (b : Str) (h : splitAtLastDot b = none) :
    splitext b = (b, []) := by
  rw [splitext, h]

/-- `splitext` at a found last dot. -/
theorem splitext_eq_some (b pre ext : Str)
    (h : splitAtLastDot b = some (pre, ext)) :
    splitext b =
      if (pre.all fun c => decide (c = '.')) = true then (b, [])
      else (pre, ext) := by
  rw [splitext, h]

/-- The two `splitext` parts reassemble the basename. -/
theorem splitext_append (b : Str) :
    (splitext b).fst ++ (splitext b).snd = b := by
  cases hs : splitAtLastDot b with
  | none => rw [splitext_eq_none b hs]; simp
  | some pe =>
    obtain ⟨pre, ext⟩ := pe
    rw [splitext_eq_some b pre ext hs]
    by_cases hall : (pre.all fun c => decide (c = '.')) = true
    · rw [if_pos hall]; simp
    · rw [if_neg hall]
      exact splitAtLastDot_append b pre ext hs

/-- No tried destination name starts with the path separator. -/
theorem candName_head_ne_sep (base : Str) (hb : '/' ∉ base) (k : Nat) :
    (candName base k).head? ≠ some '/' := by
  cases k with
  | zero =>
    cases base with
    | nil => intro h; cases h
    | cons c cs =>
      intro h
      injection h with hc
      exact hb (hc ▸ List.mem_cons_self c cs)
  | succ n =>
    rw [candName]
    cases hstem : (splitext base).fst with
    | nil =>
      intro h
      rw [List.nil_append] at h
      injection h with hc
      cases hc
    | cons c cs =>
      intro h
      rw [List.cons_append] at h
      injection h with hc
      apply hb
      rw [← splitext_append base, hstem, hc]
      exact List.mem_append_left _ (List.mem_cons_self _ _)

/-- `os.path.join` of a relative component is prefix-plus-component. -/
theorem pyJoin_not_sep (q b : Str) (hb : b.head? ≠ some '/') :
    pyJoin q b = jpre q ++ b := by
  rw [pyJoin, if_neg hb]

/-- The destination candidates of `safe_move` are pairwise distinct. -/
theorem cand_inj (q base : Str) (hb : '/' ∉ base) :
    Function.Injective (cand q base) := by
  intro k m h
  rw [cand, cand, pyJoin_not_sep q _ (candName_head_ne_sep base hb k),
    pyJoin_not_sep q _ (candName_head_ne_sep base hb m)] at h
  have h2 : candName base k = candName base m := List.append_cancel_left h
  have hsplit := congrArg List.length (splitext_append base)
  rw [List.length_append] at hsplit
  cases k with
  | zero =>
    cases m with
    | zero => rfl
    | succ m' =>
      exfalso
      have hlen := congrArg List.length h2
      simp only [candName, List.length_append, List.length_cons] at hlen
      have hnn : 0 < (natRepr (m' + 1)).length :=
        List.length_pos.mpr (natRepr_ne_nil (m' + 1))
      omega
  | succ k' =>
    cases m with
    | zero =>
      exfalso
      have hlen := congrArg List.length h2
      simp only [candName, List.length_append, List.length_cons] at hlen
      have hnn : 0 < (natRepr (k' + 1)).length :=
        List.length_pos.mpr (natRepr_ne_nil (k' + 1))
      omega
    | succ m' =>
      rw [candName, candName, List.append_assoc, List.append_assoc,
        List.cons_append, List.cons_append] at h2
      have h3 := List.append_cancel_left h2
      injection h3 with hc h4
      have h5 := List.append_cancel_right h4
      rw [natRepr_inj (k' + 1) (m' + 1) (by omega) (by omega) h5]

/-- Whatever `findFree` returns is a free candidate, and every candidate
tried before it existed. -/
theorem findFree_sound (fs : List Str) (c : Nat → Str) :
    ∀ (fuel i : Nat) (d : Str), findFree fs c fuel i = some d →
      d ∉ fs ∧ ∃ k, i ≤ k ∧ d = c k ∧ ∀ j, i ≤ j → j < k → c j ∈ fs := by
  intro fuel
  induction fuel with
  | zero => intro i d h; cases h
  | succ f ih =>
    intro i d h
    rw [findFree] at h
    by_cases hmem : c i ∈ fs
    · rw [if_pos hmem] at h
      obtain ⟨hd, k, hk1, hk2, hk3⟩ := ih (i + 1) d h
      refine ⟨hd, k, by omega, hk2, fun j hj1 hj2 => ?_⟩
      by_cases hji : j = i
      · rw [hji]; exact hmem
      · exact hk3 j (by omega) hj2
    · rw [if_neg hmem] at h
      injection h with hd
      exact ⟨hd ▸ hmem, i, le_rfl, hd.symm,
        fun j hj1 hj2 => absurd hj2 (by omega)⟩

/-- `findFree` succeeds as soon as a free candidate lies within fuel. -/
theorem findFree_complete (fs : List Str) (c : Nat → Str) :
    ∀ fuel i : Nat, (∃ j, i ≤ j ∧ j < i + fuel ∧ c j ∉ fs) →
      (findFree fs c fuel i).isSome := by
  intro fuel
  induction fuel with
  | zero =>
    intro i h
    obtain ⟨j, h1, h2, -⟩ := h
    omega
  | succ f ih =>
    intro i h
    rw [findFree]
    by_cases hmem : c i ∈ fs
    · rw [if_pos hmem]
      apply ih
      obtain ⟨j, h1, h2, h3⟩ := h
      have hji : j ≠ i := fun he => h3 (he ▸ hmem)
      exact ⟨j, by omega, by omega, h3⟩
    · rw [if_neg hmem]
      rfl

/-- A free candidate always lies within `|fs| + 1` tries (pigeonhole over
the distinct candidates). -/
theorem exists_free_cand (fs : List Str) (c : Nat → Str)
    (hinj : Function.Injective c) (i : Nat) :
    ∃ j, i ≤ j ∧ j < i + (fs.length + 1) ∧ c j ∉ fs := by
  by_contra hcon
  push_neg at hcon
  have hsub : (Finset.Ico i (i + (fs.length + 1))).image c ⊆ fs.toFinset := by
    intro x hx
    obtain ⟨j, hj, rfl⟩ := Finset.mem_image.mp hx
    rw [Finset.mem_Ico] at hj
    exact List.mem_toFinset.mpr (hcon j hj.1 hj.2)
  have hcard := Finset.card_le_card hsub
  rw [Finset.card_image_of_injective _ hinj, Nat.card_Ico] at hcard
  have htf := List.toFinset_card_le fs
  omega

/-- C6: `safe_move` returns a destination that did not exist before the
move; the destination is the candidate of index `k` in the
base-then-`name_1`, `name_2`, … sequence, every earlier candidate being
taken; and quarantining a second file after the first (the filesystem now
holding the first destination) yields a different surviving name. -/
theorem safe_move_never_overwrites (fs : List Str) (src1 src2 q : Str) :
    ∃ d1, safe_move fs src1 q = some d1 ∧ d1 ∉ fs
      ∧ (∃ k, d1 = cand q (basename src1) k
          ∧ ∀ j, j < k → cand q (basename src1) j ∈ fs)
      ∧ ∃ d2, safe_move (fs.erase src1 ++ [d1]) src2 q = some d2 ∧ d2 ≠ d1 := by
  have hgen : ∀ (fs' : List Str) (src : Str),
      ∃ d, safe_move fs' src q = some d ∧ d ∉ fs'
        ∧ ∃ k, d = cand q (basename src) k
            ∧ ∀ j, j < k → cand q (basename src) j ∈ fs' := by
    intro fs' src
    have hinj := cand_inj q (basename src) (basename_no_sep src)
    have hex := exists_free_cand fs' (cand q (basename src)) hinj 0
    have hsome := findFree_complete fs' (cand q (basename src))
      (fs'.length + 1) 0 (by simpa using hex)
    obtain ⟨d, hd⟩ := Option.isSome_iff_exists.mp hsome
    obtain ⟨hnot, k, -, hkc, hkall⟩ := findFree_sound fs' _ _ _ d hd
    exact ⟨d, hd, hnot, k, hkc, fun j hj => hkall j (Nat.zero_le j) hj⟩
  obtain ⟨d1, hd1, hn1, hshape1⟩ := hgen fs src1
  obtain ⟨d2, hd2, hn2, -⟩ := hgen (fs.erase src1 ++ [d1]) src2
  refine ⟨d1, hd1, hn1, hshape1, d2, hd2, fun he => hn2 ?_⟩
  rw [he]
  exact List.mem_append_right _ (List.mem_singleton.mpr rfl)

/-! ### C4 — scan–hash–scan idempotence -/

/-- With unique stored paths, the Python-dict snapshot lookup agrees with a
`SELECT ... WHERE filepath = ?` against the store. -/
theorem pyDictGet_snapshot : ∀ (store : List Row),
    (store.map Row.filepath).Nodup → ∀ p : Str,
    pyDictGet (storeSnapshot store) p
      = (store.find? (fun r => r.filepath == p)).map Row.modified_on := by
  intro store
  induction store with
  | nil => intro _ p; rfl
  | cons r rest ih =>
    intro hnd p
    rw [List.map_cons, List.nodup_cons] at hnd
    simp only [storeSnapshot, pyDictGet, List.map_cons, List.reverse_cons,
      List.find?_append]
    by_cases hp : r.filepath = p
    · have hnone : (List.map (fun r => (r.filepath, r.modified_on)) rest).reverse.find?
          (fun pr => pr.fst == p) = none := by
        apply List.find?_eq_none.mpr
        intro x hx hbad
        rw [List.mem_reverse] at hx
        obtain ⟨r', hr', rfl⟩ := List.mem_map.mp hx
        have hxp : r'.filepath = p := by simpa using hbad
        exact hnd.1 (by rw [hp, ← hxp]; exact List.mem_map_of_mem _ hr')
      rw [hnone, Option.none_or,
        List.find?_cons_of_pos _ (by simpa using hp),
        List.find?_cons_of_pos _ (by simpa using hp)]
      rfl
    · have hnil : ([(r.filepath, r.modified_on)].find? fun pr => pr.fst == p) = none := by
        apply List.find?_eq_none.mpr
        intro x hx hbad
        rw [List.mem_singleton] at hx
        subst hx
        exact hp (by simpa using hbad)
      rw [hnil, Option.or_none, List.find?_cons_of_neg _ (by simpa using hp)]
      exact ih hnd.2 p

/-- After `commit_batch` upserts a record, looking up its path reads back
the record's `modified_on`. -/
theorem find?_commitUpsert_self : ∀ (s : List Row) (rec : Row),
    ((commitUpsert s rec).find? (fun r => r.filepath == rec.filepath)).map
      Row.modified_on = some rec.modified_on := by
  intro s rec
  induction s with
  | nil =>
    simp only [commitUpsert, storeUpsertWith]
    rw [List.find?_cons_of_pos _ (by simp)]
    rfl
  | cons r s ih =>
    simp only [commitUpsert, storeUpsertWith] at ih ⊢
    by_cases hp : r.filepath = rec.filepath
    · rw [if_pos hp,
        List.find?_cons_of_pos _ (by
          show ((commitUpdate r rec).filepath == rec.filepath) = true
          simpa using hp)]
      rfl
    · rw [if_neg hp, List.find?_cons_of_neg _ (by simpa using hp)]
      exact ih

/-- A `commit_batch` upsert leaves the row of every other path unchanged. -/
theorem find?_commitUpsert_ne : ∀ (s : List Row) (rec : Row) (p : Str),
    p ≠ rec.filepath →
    (commitUpsert s rec).find? (fun r => r.filepath == p)
      = s.find? (fun r => r.filepath == p) := by
  intro s rec
  induction s with
  | nil =>
    intro p hne
    simp only [commitUpsert, storeUpsertWith]
    rw [List.find?_cons_of_neg _ (by simp; exact fun h => hne h.symm)]
  | cons r s ih =>
    intro p hne
    simp only [commitUpsert, storeUpsertWith] at ih ⊢
    by_cases hp : r.filepath = rec.filepath
    · rw [if_pos hp]
      have hq : ¬r.filepath = p := fun hq => hne (hq.symm.trans hp)
      rw [List.find?_cons_of_neg _ (by
          show ¬((commitUpdate r rec).filepath == p) = true
          simpa using hq),
        List.find?_cons_of_neg _ (by simpa using hq)]
    · rw [if_neg hp]
      by_cases hq : r.filepath = p
      · rw [List.find?_cons_of_pos _ (by simpa using hq),
          List.find?_cons_of_pos _ (by simpa using hq)]
      · rw [List.find?_cons_of_neg _ (by simpa using hq),
          List.find?_cons_of_neg _ (by simpa using hq)]
        exact ih p hne

/-- Folding commits whose paths all differ from `p` does not change the row
seen at `p`. -/
theorem find?_fold_commit_ne : ∀ (l s : List Row) (p : Str),
    (∀ rec ∈ l, rec.filepath ≠ p) →
    (l.foldl commitUpsert s).find? (fun r => r.filepath == p)
      = s.find? (fun r => r.filepath == p) := by
  intro l
  induction l with
  | nil => intro s p _; rfl
  | cons rec l ih =>
    intro s p h
    rw [List.foldl_cons,
      ih _ p (fun x hx => h x (List.mem_cons_of_mem rec hx)),
      find?_commitUpsert_ne s rec p
        (fun he => h rec (List.mem_cons_self rec l) he.symm)]

/-- After folding commits with pairwise-distinct paths, the row at a
committed record's path carries that record's `modified_on`. -/
theorem find?_fold_commit_mem : ∀ (l s : List Row) (rec : Row),
    rec ∈ l → (l.map Row.filepath).Nodup →
    ((l.foldl commitUpsert s).find? (fun r => r.filepath == rec.filepath)).map
      Row.modified_on = some rec.modified_on := by
  intro l
  induction l with
  | nil => intro s rec h; cases h
  | cons r0 l ih =>
    intro s rec hmem hnd
    rw [List.map_cons, List.nodup_cons] at hnd
    rw [List.foldl_cons]
    rcases List.mem_cons.mp hmem with heq | htail
    · subst heq
      rw [find?_fold_commit_ne l (commitUpsert s rec) rec.filepath
        (fun x hx he => hnd.1 (he ▸ List.mem_map_of_mem Row.filepath hx))]
      exact find?_commitUpsert_self s rec
    · exact ih (commitUpsert s r0) rec htail hnd.2

/-- Paths present after a `commit_batch` upsert were present before or are
the record's. -/
theorem mem_paths_commitUpsert (rec : Row) (q : Str) : ∀ s : List Row,
    q ∈ (commitUpsert s rec).map Row.filepath →
    q ∈ s.map Row.filepath ∨ q = rec.filepath := by
  intro s
  induction s with
  | nil =>
    intro h
    right
    simpa [commitUpsert, storeUpsertWith] using h
  | cons r s ih =>
    intro h
    simp only [commitUpsert, storeUpsertWith] at h
    by_cases hp : r.filepath = rec.filepath
    · rw [if_pos hp, List.map_cons] at h
      rcases List.mem_cons.mp h with heq | htail
      · left
        rw [List.map_cons]
        exact List.mem_cons.mpr (Or.inl heq)
      · left
        rw [List.map_cons]
        exact List.mem_cons.mpr (Or.inr htail)
    · rw [if_neg hp, List.map_cons] at h
      rcases List.mem_cons.mp h with heq | htail
      · left
        rw [List.map_cons]
        exact List.mem_cons.mpr (Or.inl heq)
      · rcases ih htail with hl | hr
        · left
          rw [List.map_cons]
          exact List.mem_cons.mpr (Or.inr hl)
        · right
          exact hr

/-- A `commit_batch` upsert preserves uniqueness of stored paths. -/
theorem nodup_commitUpsert (rec : Row) : ∀ s : List Row,
    (s.map Row.filepath).Nodup →
    ((commitUpsert s rec).map Row.filepath).Nodup := by
  intro s
  induction s with
  | nil =>
    intro _
    simp [commitUpsert, storeUpsertWith]
  | cons r s ih =>
    intro hnd
    rw [List.map_cons, List.nodup_cons] at hnd
    simp only [commitUpsert, storeUpsertWith]
    by_cases hp : r.filepath = rec.filepath
    · rw [if_pos hp, List.map_cons, List.nodup_cons]
      exact ⟨show (commitUpdate r rec).filepath ∉ _ from hnd.1, hnd.2⟩
    · rw [if_neg hp, List.map_cons, List.nodup_cons]
      refine ⟨fun hmem => ?_, ih hnd.2⟩
      rcases mem_paths_commitUpsert rec r.filepath s hmem with hl | hr
      · exact hnd.1 hl
      · exact hp hr

/-- Folding `commit_batch` upserts preserves uniqueness of stored paths. -/
theorem nodup_fold_commit : ∀ (l s : List Row),
    (s.map Row.filepath).Nodup →
    ((l.foldl commitUpsert s).map Row.filepath).Nodup := by
  intro l
  induction l with
  | nil => intro s h; exact h
  | cons rec l ih =>
    intro s h
    rw [List.foldl_cons]
    exact ih _ (nodup_commitUpsert rec s h)

/-- When every hash succeeds, the hashed records carry exactly the work
items' paths, in order. -/
theorem filterMap_hash_worker_paths (hashOf : Str → Option Str) (now : Str)
    (ht : HashType) : ∀ work : List Meta,
    (∀ m ∈ work, (hashOf m.filepath).isSome) →
    (work.filterMap (hash_worker hashOf now ht)).map Row.filepath
      = work.map Meta.filepath := by
  intro work
  induction work with
  | nil => intro _; rfl
  | cons m w ih =>
    intro h
    obtain ⟨hv, hhv⟩ := Option.isSome_iff_exists.mp (h m (List.mem_cons_self m w))
    have hw : hash_worker hashOf now ht m = some
        { filepath := m.filepath
          filename := m.filename
          size_bytes := some m.size_bytes
          hash_md5 := if ht = HashType.md5 then some hv else none
          hash_sha256 := if ht = HashType.sha256 then some hv else none
          imported_on := some now
          last_scanned_on := some now
          created_on := m.created_on
          modified_on := some m.modified_on
          flags := none } := by
      rw [hash_worker, hhv]
      rfl
    simp only [List.filterMap_cons, hw, List.map_cons]
    rw [ih (fun x hx => h x (List.mem_cons_of_mem m hx))]

/-- A successfully hashed work item contributes its record. -/
theorem mem_filterMap_hash_worker (hashOf : Str → Option Str) (now : Str)
    (ht : HashType) (work : List Meta) (m : Meta) (hm : m ∈ work)
    (h : (hashOf m.filepath).isSome) :
    ∃ rec, rec ∈ work.filterMap (hash_worker hashOf now ht)
      ∧ rec.filepath = m.filepath ∧ rec.modified_on = some m.modified_on := by
  obtain ⟨hv, hhv⟩ := Option.isSome_iff_exists.mp h
  refine ⟨{ filepath := m.filepath
            filename := m.filename
            size_bytes := some m.size_bytes
            hash_md5 := if ht = HashType.md5 then some hv else none
            hash_sha256 := if ht = HashType.sha256 then some hv else none
            imported_on := some now
            last_scanned_on := some now
            created_on := m.created_on
            modified_on := some m.modified_on
            flags := none },
    List.mem_filterMap.mpr ⟨m, hm, ?_⟩, rfl, rfl⟩
  rw [hash_worker, hhv]
  rfl

/-- An incremental rescan decision is negative exactly when the stored
`modified_on` matches the file's. -/
theorem needs_rescan_incremental_false (o : Option Str) (m : Meta) :
    needs_rescan o m true = false ↔ o = some m.modified_on := by
  cases o with
  | none => simp [needs_rescan]
  | some mo => simp [needs_rescan]

/-- Two members of a path-distinct file list with equal paths coincide. -/
theorem meta_eq_of_nodup : ∀ l : List Meta, (l.map Meta.filepath).Nodup →
    ∀ a b : Meta, a ∈ l → b ∈ l → a.filepath = b.filepath → a = b := by
  intro l
  induction l with
  | nil => intro _ a b ha; cases ha
  | cons x l ih =>
    intro hnd a b ha hb hab
    rw [List.map_cons, List.nodup_cons] at hnd
    rcases List.mem_cons.mp ha with hax | hal
    · rcases List.mem_cons.mp hb with hbx | hbl
      · rw [hax, hbx]
      · exfalso
        have hmem : b.filepath ∈ l.map Meta.filepath :=
          List.mem_map_of_mem _ hbl
        rw [← hab, hax] at hmem
        exact hnd.1 hmem
    · rcases List.mem_cons.mp hb with hbx | hbl
      · exfalso
        have hmem : a.filepath ∈ l.map Meta.filepath :=
          List.mem_map_of_mem _ hal
        rw [hab, hbx] at hmem
        exact hnd.1 hmem
      · exact ih hnd.2 a b hal hbl hab

/-- C4: run the Scanner in incremental mode, hash every returned work item
successfully, and commit the records (in any completion order `recs`)
through `cmd_scan`'s batch callback; if the tree `fs` is then unchanged
(same paths, same `modified_on`), a second incremental Scanner pass over the
updated store returns the empty work list. -/
theorem scan_hash_scan_idempotent
    (fs : List Meta) (store0 : List Row) (hashOf : Str → Option Str)
    (now : Str) (ht : HashType) (recs : List Row)
    (hfs : (fs.map Meta.filepath).Nodup)
    (hs0 : (store0.map Row.filepath).Nodup)
    (hok : ∀ m ∈ scanOnce store0 true fs, (hashOf m.filepath).isSome)
    (hperm : recs.Perm ((scanOnce store0 true fs).filterMap
        (hash_worker hashOf now ht))) :
    scanOnce (recs.foldl commitUpsert store0) true fs = [] := by
  have hwork_nd : ((scanOnce store0 true fs).map Meta.filepath).Nodup :=
    List.Nodup.sublist (List.Sublist.map _ (List.filter_sublist fs)) hfs
  have hmapped_paths := filterMap_hash_worker_paths hashOf now ht
    (scanOnce store0 true fs) hok
  have hrecs_nd : (recs.map Row.filepath).Nodup :=
    (hperm.map Row.filepath).nodup_iff.mpr
      (by rw [hmapped_paths]; exact hwork_nd)
  have hs1 := nodup_fold_commit recs store0 hs0
  apply List.filter_eq_nil_iff.mpr
  intro m hm
  have hdb : (pyDictGet (storeSnapshot (recs.foldl commitUpsert store0))
       m.filepath).bind id = some m.modified_on := by
    rw [pyDictGet_snapshot _ hs1 m.filepath]
    by_cases hcase : m ∈ scanOnce store0 true fs
    · obtain ⟨rec, hrecmem, hrpath, hrmo⟩ := mem_filterMap_hash_worker hashOf
        now ht _ m hcase (hok m hcase)
      have hrec_in : rec ∈ recs := hperm.mem_iff.mpr hrecmem
      have hfind := find?_fold_commit_mem recs store0 rec hrec_in hrecs_nd
      rw [← hrpath, ← hrmo]
      cases hfq : (recs.foldl commitUpsert store0).find?
          (fun r => r.filepath == rec.filepath) with
      | none => rw [hfq] at hfind; cases hfind
      | some row =>
        rw [hfq, Option.map_some'] at hfind
        injection hfind with hmo
    · have hpred0 : needs_rescan
          ((pyDictGet (storeSnapshot store0) m.filepath).bind id) m true
          = false := by
        rcases Bool.eq_false_or_eq_true (needs_rescan
          ((pyDictGet (storeSnapshot store0) m.filepath).bind id) m true)
          with ht' | hf
        · exfalso
          apply hcase
          show m ∈ List.filter
            (fun m' => needs_rescan
              ((pyDictGet (storeSnapshot store0) m'.filepath).bind id) m' true) fs
          rw [List.mem_filter]
          exact ⟨hm, ht'⟩
        · exact hf
      have heq0 : (pyDictGet (storeSnapshot store0) m.filepath).bind id
          = some m.modified_on :=
        (needs_rescan_incremental_false _ m).mp hpred0
      have hne : ∀ rec ∈ recs, rec.filepath ≠ m.filepath := by
        intro rec hrec he
        have h1 : rec.filepath ∈ recs.map Row.filepath :=
          List.mem_map_of_mem _ hrec
        have h2 : rec.filepath ∈ (scanOnce store0 true fs).map Meta.filepath := by
          rw [← hmapped_paths]
          exact (hperm.map Row.filepath).mem_iff.mp h1
        obtain ⟨m', hm', hm'path⟩ := List.mem_map.mp h2
        have hm'fs : m' ∈ fs := List.mem_of_mem_filter hm'
        have hmm : m' = m :=
          meta_eq_of_nodup fs hfs m' m hm'fs hm (by rw [hm'path, he])
        exact hcase (hmm ▸ hm')
      rw [find?_fold_commit_ne recs store0 m.filepath hne,
        ← pyDictGet_snapshot store0 hs0 m.filepath]
      exact heq0
  show ¬ needs_rescan ((pyDictGet (storeSnapshot
      (recs.foldl commitUpsert store0)) m.filepath).bind id) m true = true
  rw [(needs_rescan_incremental_false _ m).mpr hdb]
  simp

/-- Witness for `scan_hash_scan_idempotent`: a one-file tree over an empty
store, hashed by a constant digest oracle, committed in completion order. -/
theorem scan_hash_scan_idempotent_witness :
    (([c4Meta].map Meta.filepath).Nodup
     ∧ (([] : List Row).map Row.filepath).Nodup
     ∧ (∀ m ∈ scanOnce [] true [c4Meta],
          ((fun _ : Str => some "h".toList) m.filepath).isSome)
     ∧ ((scanOnce [] true [c4Meta]).filterMap
          (hash_worker (fun _ => some "h".toList) "n".toList HashType.md5)).Perm
        ((scanOnce [] true [c4Meta]).filterMap
          (hash_worker (fun _ => some "h".toList) "n".toList HashType.md5)))
    ∧ scanOnce
        (((scanOnce [] true [c4Meta]).filterMap
            (hash_worker (fun _ => some "h".toList) "n".toList HashType.md5)).foldl
          commitUpsert []) true [c4Meta] = [] :=
  ⟨⟨by decide, by decide, by decide, List.Perm.refl _⟩,
    scan_hash_scan_idempotent [c4Meta] [] (fun _ => some "h".toList)
      "n".toList HashType.md5 _ (by decide) (by decide) (by decide)
      (List.Perm.refl _)⟩

end HashDB
